import Mathlib

/-!
Verification of the BlackOutPDF reversible-redaction subsystem.

Shallow embedding of the repository's code:
  * src/src/utils.py      — hybrid_encrypt / hybrid_decrypt (RSA-OAEP + AES-GCM envelope)
  * src/blackoutpdf.py    — export_pdf_secured coordinate mapping, undo/history state machine

External libraries (PyCryptodome, base64, UTF-8 codecs) are modelled as an
explicit environment of primitive functions (`CryptoEnv`); their documented
guarantees appear as hypotheses of the theorems, never as global axioms.
Randomness (`get_random_bytes`, the GCM nonce draw) is modelled as an explicit
entropy input threaded into each call.  Components that the spec describes but
that are absent from the sources (polygon decomposition, the escrow-redaction
applier) are modelled from the spec and marked as such in their doc comments.
-/

/-- Byte strings, as in Python `bytes`: lists of naturals (each byte < 256). -/
abbrev Bytes := List Nat

/-- The Python exceptions that can surface from the code paths under study.
`structError` is `struct.error` from `struct.unpack` on a short buffer;
`oaepError` is the `ValueError` raised by `PKCS1_OAEP.decrypt` (key-unwrap
failure, the spec's CryptoError); `macError` is the `ValueError` from
`decrypt_and_verify` on tag mismatch (the spec's AuthenticationError);
`unicodeError` is `UnicodeDecodeError` from `bytes.decode()`;
`geometryError` and `stepError` serve the spec-modelled components. -/
inductive PyErr where
  | structError
  | oaepError
  | macError
  | unicodeError
  | geometryError
  | stepError
deriving DecidableEq, Repr

/-- Result of a Python call: a value or a raised exception. -/
inductive PyResult (α : Type) where
  | ok : α → PyResult α
  | err : PyErr → PyResult α
deriving DecidableEq, Repr

/-- Python slice `d[a:b]` for 0 ≤ a ≤ b (clamping past the end, as Python does). -/
def pySlice (d : Bytes) (a b : Nat) : Bytes := (d.drop a).take (b - a)

/-- struct.pack(">H", n): two big-endian bytes.  The Python call raises for
n ≥ 65536; theorems that rely on faithful packing carry that bound as a
hypothesis. -/
def pack16be (n : Nat) : Bytes := [n / 256 % 256, n % 256]

/-- struct.unpack(">H", data[:2])[0]; `struct.error` when fewer than 2 bytes. -/
def unpack16be (d : Bytes) : PyResult Nat :=
  match d with
  | b0 :: b1 :: _ => .ok (b0 * 256 + b1)
  | _ => .err .structError

/-- The external primitives used by src/src/utils.py.  `oaepEncrypt pub sess`
is `PKCS1_OAEP.new(RSA.import_key(pub)).encrypt(sess)` (OAEP's internal
randomness folded in); `oaepDecrypt priv w` is the corresponding decrypt,
raising ValueError on wrong-length or unpaddable input; `gcmEncrypt k n p`
is `AES.new(k, MODE_GCM, n).encrypt_and_digest(p)`; `gcmDecrypt k n c t` is
`decrypt_and_verify(c, t)`; the UTF-8 and base64 codecs are `str.encode` /
`bytes.decode` / `base64.b64encode` / `base64.b64decode`. -/
structure CryptoEnv where
  oaepEncrypt : Bytes → Bytes → Bytes
  oaepDecrypt : Bytes → Bytes → PyResult Bytes
  gcmEncrypt : Bytes → Bytes → Bytes → Bytes × Bytes
  gcmDecrypt : Bytes → Bytes → Bytes → Bytes → PyResult Bytes
  utf8Encode : String → Bytes
  utf8Decode : Bytes → PyResult String
  b64encode : Bytes → Bytes
  b64decode : Bytes → Bytes

/-- The intermediate values of one hybrid_encrypt call (utils.py lines 8-12). -/
structure EncParts where
  sess : Bytes
  encSess : Bytes
  nonce : Bytes
  ct : Bytes
  tag : Bytes
deriving DecidableEq, Repr

/-- utils.py lines 8-12: `sess = get_random_bytes(32)` (the first 32 bytes of
the entropy input), `enc_sess = PKCS1_OAEP.new(pub_key).encrypt(sess)`,
`cipher = AES.new(sess, AES.MODE_GCM)` whose default `cipher.nonce` is a fresh
random 16-byte string (the next 16 bytes of the entropy input), and
`ct, tag = cipher.encrypt_and_digest(plaintext.encode())`. -/
def hybridEncryptParts (E : CryptoEnv) (pubPem : Bytes) (plaintext : String)
    (rand : Bytes) : EncParts :=
  ⟨rand.take 32,
   E.oaepEncrypt pubPem (rand.take 32),
   (rand.drop 32).take 16,
   (E.gcmEncrypt (rand.take 32) ((rand.drop 32).take 16) (E.utf8Encode plaintext)).1,
   (E.gcmEncrypt (rand.take 32) ((rand.drop 32).take 16) (E.utf8Encode plaintext)).2⟩

/-- utils.py line 13: `blob = struct.pack(">H", len(enc_sess)) + enc_sess +
cipher.nonce + tag + ct`. -/
def assembleBlob (encSess nonce tag ct : Bytes) : Bytes :=
  pack16be encSess.length ++ encSess ++ nonce ++ tag ++ ct

/-- utils.py lines 7-14, `hybrid_encrypt(pub_pem, plaintext)`, with the random
draws made explicit as the `rand` entropy input. -/
def hybrid_encrypt (E : CryptoEnv) (pubPem : Bytes) (plaintext : String)
    (rand : Bytes) : Bytes :=
  E.b64encode (assembleBlob (hybridEncryptParts E pubPem plaintext rand).encSess
    (hybridEncryptParts E pubPem plaintext rand).nonce
    (hybridEncryptParts E pubPem plaintext rand).tag
    (hybridEncryptParts E pubPem plaintext rand).ct)

/-- The slices hybrid_decrypt reads from the decoded blob. -/
structure BlobParts where
  klen : Nat
  encKey : Bytes
  nonce : Bytes
  tag : Bytes
  ct : Bytes
deriving DecidableEq, Repr

/-- utils.py lines 18-20: `klen = struct.unpack(">H", data[:2])[0]`,
`enc_key = data[2:2+klen]`, `nonce, tag, ct = data[2+klen:18+klen],
data[18+klen:34+klen], data[34+klen:]`. -/
def parseBlob (data : Bytes) : PyResult BlobParts :=
  match unpack16be data with
  | .err e => .err e
  | .ok klen =>
    .ok ⟨klen, pySlice data 2 (2 + klen), pySlice data (2 + klen) (18 + klen),
      pySlice data (18 + klen) (34 + klen), data.drop (34 + klen)⟩

/-- The blob layout asserted by the claim (spec words, for comparison with
`parseBlob`): 12-byte nonce at offset 2+klen, 16-byte tag at 14+klen,
ciphertext from 30+klen. -/
def parseBlobClaim (data : Bytes) : PyResult BlobParts :=
  match unpack16be data with
  | .err e => .err e
  | .ok klen =>
    .ok ⟨klen, pySlice data 2 (2 + klen), pySlice data (2 + klen) (14 + klen),
      pySlice data (14 + klen) (30 + klen), data.drop (30 + klen)⟩

/-- utils.py lines 18-23 applied to an already base64-decoded blob: slice,
unwrap the session key, AEAD-verify, then UTF-8-decode. -/
def hybridDecryptData (E : CryptoEnv) (privPem : Bytes) (data : Bytes) :
    PyResult String :=
  match parseBlob data with
  | .err e => .err e
  | .ok p =>
    match E.oaepDecrypt privPem p.encKey with
    | .err e => .err e
    | .ok sess =>
      match E.gcmDecrypt sess p.nonce p.ct p.tag with
      | .err e => .err e
      | .ok plain => E.utf8Decode plain

/-- utils.py lines 16-23, `hybrid_decrypt(priv_pem, b64blob)`. -/
def hybrid_decrypt (E : CryptoEnv) (privPem : Bytes) (b64blob : Bytes) :
    PyResult String :=
  hybridDecryptData E privPem (E.b64decode b64blob)

/-- Flip bit `b` of byte `i` of a byte string (no-op past the end). -/
def flipByteBit : Nat → Nat → Bytes → Bytes
  | _, _, [] => []
  | 0, b, x :: xs => (x ^^^ 2 ^ b) :: xs
  | i + 1, b, x :: xs => x :: flipByteBit i b xs

/-- An integer rectangle as Qt's QRect carries it: origin and extent. -/
structure QRectI where
  x : Int
  y : Int
  w : Int
  h : Int
deriving DecidableEq, Repr

/-- blackoutpdf.py line 739: `scale = page.rect.width /
widget.original_pixmap.width()` — the page-width to raster-width ratio
(float division modelled on ℚ). -/
def exportScale (pageW rasterW : ℚ) : ℚ := pageW / rasterW

/-- blackoutpdf.py lines 741-746: `fitz.Rect(r.x()*scale, r.y()*scale,
(r.x()+r.width())*scale, (r.y()+r.height())*scale)` — the single
width-derived scale multiplies both axes. -/
def exportRedactRect (pageW rasterW : ℚ) (r : QRectI) : ℚ × ℚ × ℚ × ℚ :=
  ((r.x : ℚ) * exportScale pageW rasterW, (r.y : ℚ) * exportScale pageW rasterW,
   ((r.x : ℚ) + (r.w : ℚ)) * exportScale pageW rasterW,
   ((r.y : ℚ) + (r.h : ℚ)) * exportScale pageW rasterW)

/-- The mapping asserted by the claim (spec words, for comparison with
`exportRedactRect`): x and widths scale by sx = page_w/raster_w, y and
heights by sy = page_h/raster_h. -/
def mapRectClaim (pageW pageH rasterW rasterH : ℚ) (r : QRectI) :
    ℚ × ℚ × ℚ × ℚ :=
  ((r.x : ℚ) * (pageW / rasterW), (r.y : ℚ) * (pageH / rasterH),
   ((r.x : ℚ) + (r.w : ℚ)) * (pageW / rasterW),
   ((r.y : ℚ) + (r.h : ℚ)) * (pageH / rasterH))

/-- A document-space rectangle (x0, y0, x1, y1) in page units. -/
abbrev RectQ := ℚ × ℚ × ℚ × ℚ

/-- One operation recorded on an output page: an opaque redaction fill or a
zero-opacity escrow annotation holding an encrypted blob. -/
inductive PageOp where
  | fill : RectQ → PageOp
  | escrowAnnot : Bytes → PageOp
deriving DecidableEq, Repr

/-- Modelled from the spec: RedactionApplier.apply_redaction (spec sections
4.5 and 7).  The escrow-redaction orchestration is absent from src/ — the
repository's export path (blackoutpdf.py export_pdf_secured) paints
redactions with no escrow — so the applier is modelled from the spec's
words: with a public key supplied, capture, encode and encrypt must all
succeed, then the escrow annotation is attached and only then are the opaque
fills painted; a failure of any step raises before any fill.  The page is an
append-only operation list; a raised error returns no page at all, so the
caller's document is untouched. -/
def apply_redaction (pubKey : Option Bytes) (capture : PyResult Bytes)
    (encodeStep : Bytes → PyResult Bytes) (encryptStep : Bytes → PyResult Bytes)
    (page : List PageOp) (rects : List RectQ) : PyResult (List PageOp) :=
  match pubKey with
  | none => .ok (page ++ rects.map PageOp.fill)
  | some _ =>
    match capture with
    | .err e => .err e
    | .ok cap =>
      match encodeStep cap with
      | .err e => .err e
      | .ok enc =>
        match encryptStep enc with
        | .err e => .err e
        | .ok blob => .ok (page ++ PageOp.escrowAnnot blob :: rects.map PageOp.fill)

/-- A polygon vertex in document space. -/
structure PtQ where
  x : ℚ
  y : ℚ
deriving DecidableEq, Repr

/-- The polygon's edge list: consecutive vertices, closing back to the head. -/
def edgeList (pts : List PtQ) : List (PtQ × PtQ) :=
  pts.zip (pts.drop 1 ++ pts.take 1)

/-- X-intercepts of the scanline `y = ymid` with every non-horizontal edge
whose half-open vertical span contains ymid, by linear interpolation. -/
def edgeIntercepts (ymid : ℚ) (es : List (PtQ × PtQ)) : List ℚ :=
  es.foldr (fun e acc =>
    if e.1.y ≠ e.2.y ∧ min e.1.y e.2.y ≤ ymid ∧ ymid < max e.1.y e.2.y then
      (e.1.x + (ymid - e.1.y) / (e.2.y - e.1.y) * (e.2.x - e.1.x)) :: acc
    else acc) []

/-- Insert into a sorted list of rationals. -/
def insortQ (x : ℚ) : List ℚ → List ℚ
  | [] => [x]
  | a :: rest => if x ≤ a then x :: a :: rest else a :: insortQ x rest

/-- Insertion sort of the intercept list. -/
def sortQ (l : List ℚ) : List ℚ := l.foldr insortQ []

/-- Pair sorted intercepts (1st,2nd),(3rd,4th),… (even-odd rule). -/
def pairUp : List ℚ → List (ℚ × ℚ)
  | a :: c :: rest => (a, c) :: pairUp rest
  | _ => []

/-- The rectangles of one scan band [y, y+s): intercepts at the band midline
paired even-odd, dropping pairs of non-positive width. -/
def bandRects (pts : List PtQ) (s y : ℚ) : List RectQ :=
  (pairUp (sortQ (edgeIntercepts (y + s / 2) (edgeList pts)))).foldr
    (fun p acc => if p.1 < p.2 then (p.1, y, p.2, y + s) :: acc else acc) []

/-- Modelled from the spec: GeometryDecomposer.decompose (spec section 4.2) —
no polygon decomposition exists anywhere in src/, so the scanline algorithm
is modelled from the spec's words: reject fewer than 3 points with
GeometryError; sweep bands of height s from y_min toward y_max, intersect
each band's midline with every non-horizontal edge over its half-open
vertical span, sort the intercepts, pair them even-odd, and emit one
rectangle per pair of positive width. -/
def decompose (pts : List PtQ) (s : ℚ) : PyResult (List RectQ) :=
  if pts.length < 3 then .err .geometryError
  else
    .ok ((List.range (⌈(((pts.map PtQ.y).foldr max ((pts.map PtQ.y).headD 0)) -
          ((pts.map PtQ.y).foldr min ((pts.map PtQ.y).headD 0))) / s⌉).toNat).foldr
      (fun k acc =>
        bandRects pts s (((pts.map PtQ.y).foldr min ((pts.map PtQ.y).headD 0)) +
          (k : ℚ) * s) ++ acc) [])

/-- The six annotation kinds the undo history distinguishes
(blackoutpdf.py lines 625-636). -/
inductive ActKind where
  | blackout
  | highlight
  | comment
  | signature
  | stamp
  | textbox
deriving DecidableEq, Repr

/-- One CaviardableImage page widget: its fixed page_index and its six
annotation lists (blackoutpdf.py lines 21-30). -/
structure PageWidget where
  pageIndex : Nat
  rects : List QRectI
  highlights : List QRectI
  comments : List QRectI
  signatures : List QRectI
  stamps : List QRectI
  textboxes : List QRectI
deriving DecidableEq, Repr

/-- One BlackoutPDF.history entry: `{"page": …, "type": …, "data": …}`. -/
structure HistEntry where
  page : Nat
  kind : ActKind
  data : QRectI
deriving DecidableEq, Repr

/-- The mutable state the history invariant is about: `image_widgets` and
`history` of the BlackoutPDF main window. -/
structure AppState where
  widgets : List PageWidget
  history : List HistEntry
deriving DecidableEq, Repr

/-- A freshly created CaviardableImage for page i: empty annotation lists. -/
def freshWidget (i : Nat) : PageWidget := ⟨i, [], [], [], [], [], []⟩

/-- Mouse handlers append the drawn datum to the mode's list
(blackoutpdf.py lines 129, 140, 154, 172, 265, 269). -/
def addItem (k : ActKind) (d : QRectI) (w : PageWidget) : PageWidget :=
  match k with
  | .blackout => { w with rects := d :: w.rects }
  | .highlight => { w with highlights := d :: w.highlights }
  | .comment => { w with comments := d :: w.comments }
  | .signature => { w with signatures := d :: w.signatures }
  | .stamp => { w with stamps := d :: w.stamps }
  | .textbox => { w with textboxes := d :: w.textboxes }

/-- undo_last_action's per-kind removal (blackoutpdf.py lines 625-636):
blackout and highlight remove the first matching element when present; the
other kinds filter out every entry whose datum matches. -/
def removeItem (k : ActKind) (d : QRectI) (w : PageWidget) : PageWidget :=
  match k with
  | .blackout => { w with rects := w.rects.erase d }
  | .highlight => { w with highlights := w.highlights.erase d }
  | .comment => { w with comments := w.comments.filter (fun c => c ≠ d) }
  | .signature => { w with signatures := w.signatures.filter (fun c => c ≠ d) }
  | .stamp => { w with stamps := w.stamps.filter (fun c => c ≠ d) }
  | .textbox => { w with textboxes := w.textboxes.filter (fun c => c ≠ d) }

/-- Item-list replacement covering run_ocr (lines 834-839) and item deletion
(keyPressEvent): widget contents change, the page index and widget count do
not, and no history entry is written. -/
def setItems (k : ActKind) (l : List QRectI) (w : PageWidget) : PageWidget :=
  match k with
  | .blackout => { w with rects := l }
  | .highlight => { w with highlights := l }
  | .comment => { w with comments := l }
  | .signature => { w with signatures := l }
  | .stamp => { w with stamps := l }
  | .textbox => { w with textboxes := l }

/-- Apply f to the n-th element of a list (no-op past the end). -/
def listModify {α : Type} (f : α → α) : Nat → List α → List α
  | _, [] => []
  | 0, a :: t => f a :: t
  | n + 1, a :: t => a :: listModify f n t

/-- The user-visible operations that touch `image_widgets` or `history`. -/
inductive AppOp where
  | load : Nat → AppOp
  | draw : Nat → ActKind → QRectI → AppOp
  | undo : AppOp
  | mutate : Nat → ActKind → List QRectI → AppOp
deriving DecidableEq, Repr

/-- One application step.  load_pdf (blackoutpdf.py lines 675-711) clears
history together with image_widgets and rebuilds widget i with page_index i
for every page; a mouse action on a live widget (lines 259-271 and the
press handlers) walks up to the BlackoutPDF parent and appends an entry
carrying the widget's own page_index — a widget detached by a reload has no
such parent and appends nothing, hence the in-range guard; undo_last_action
(lines 616-637) pops the newest entry and edits that page's widget; mutate
covers OCR and deletion, which touch item lists only.  History is stored
newest-first here; Python appends and pops at the list's end. -/
def step (s : AppState) : AppOp → AppState
  | .load n => ⟨(List.range n).map freshWidget, []⟩
  | .draw i k d =>
    if i < s.widgets.length then
      ⟨listModify (addItem k d) i s.widgets,
        ⟨(s.widgets.getD i (freshWidget 0)).pageIndex, k, d⟩ :: s.history⟩
    else s
  | .undo =>
    match s.history with
    | [] => s
    | e :: rest => ⟨listModify (removeItem e.kind e.data) e.page s.widgets, rest⟩
  | .mutate i k l => ⟨listModify (setItems k l) i s.widgets, s.history⟩

/-- The application starts with no document and no history. -/
def initState : AppState := ⟨[], []⟩

/-- Run a sequence of application operations from the initial state. -/
def runApp (ops : List AppOp) : AppState := ops.foldl step initState

/-- The invariant: widget i records page_index i, and every history entry
points below the widget count. -/
def HistInv (s : AppState) : Prop :=
  (∀ i, i < s.widgets.length → (s.widgets.getD i (freshWidget 0)).pageIndex = i) ∧
  (∀ e ∈ s.history, e.page < s.widgets.length)

/-- A 16-byte checksum standing in for a GCM tag in the witness environment. -/
def tagOfW (p : Bytes) : Bytes := p.length % 256 :: List.replicate 15 37

/-- Concrete environment for witnesses: identity base64, copy-through key
wrap whose decrypt enforces the 32-byte input size (PKCS1_OAEP.decrypt
raises ValueError on any wrong-size ciphertext), a checksum AEAD with
16-byte tags, and character-code text encoding. -/
def rtEnv : CryptoEnv where
  oaepEncrypt := fun _ s => s
  oaepDecrypt := fun _ w => if w.length = 32 then .ok w else .err .oaepError
  gcmEncrypt := fun _ _ p => (p, tagOfW p)
  gcmDecrypt := fun _ _ c t => if t = tagOfW c then .ok c else .err .macError
  utf8Encode := fun s => s.data.map Char.toNat
  utf8Decode := fun bb => .ok (String.mk (bb.map Char.ofNat))
  b64encode := id
  b64decode := id

/-- Ciphertext of the tamper witness. -/
def tamperCt : Bytes := [9]

/-- Tag of the tamper witness. -/
def tamperTag : Bytes := List.replicate 16 1

/-- Nonce of the tamper witness. -/
def nonceW : Bytes := List.replicate 16 0

/-- Concrete environment for the tamper witness: its AEAD accepts exactly the
one genuine (ciphertext, tag) pair and rejects everything else with the MAC
error, the idealisation of GCM's authenticity guarantee at one encryption. -/
def tamperEnv : CryptoEnv where
  oaepEncrypt := fun _ s => s
  oaepDecrypt := fun _ w => if w = [1, 2] then .ok [5] else .err .oaepError
  gcmEncrypt := fun _ _ p => (p, tamperTag)
  gcmDecrypt := fun _ _ c t =>
    if c = tamperCt ∧ t = tamperTag then .ok tamperCt else .err .macError
  utf8Encode := fun _ => []
  utf8Decode := fun _ => .ok ""
  b64encode := id
  b64decode := id

/-- Concrete environment for the UTF-8 strictness witness: key unwrap and
AEAD always succeed, text decoding always raises UnicodeDecodeError. -/
def u8Env : CryptoEnv where
  oaepEncrypt := fun _ s => s
  oaepDecrypt := fun _ w => .ok w
  gcmEncrypt := fun _ _ p => (p, List.replicate 16 0)
  gcmDecrypt := fun _ _ c _ => .ok c
  utf8Encode := fun _ => []
  utf8Decode := fun _ => .err .unicodeError
  b64encode := id
  b64decode := id

/-- Entropy input of the round-trip witness. -/
def randW : Bytes := List.range 48

/-- Dropping the length of a left append factor exposes the right factor. -/
theorem drop_len_append (x y : Bytes) : (x ++ y).drop x.length = y := by
  induction x with
  | nil => rfl
  | cons a t ih => simp [ih]

/-- Taking the length of a left append factor returns that factor. -/
theorem take_len_append (x y : Bytes) : (x ++ y).take x.length = x := by
  induction x with
  | nil => rfl
  | cons a t ih => simp [ih]

/-- Drop at an arbitrary name for the left factor's length. -/
theorem drop_of_append (x y : Bytes) (n : Nat) (h : x.length = n) :
    (x ++ y).drop n = y := by
  subst h; exact drop_len_append x y

/-- Take at an arbitrary name for the left factor's length. -/
theorem take_of_append (x y : Bytes) (n : Nat) (h : x.length = n) :
    (x ++ y).take n = x := by
  subst h; exact take_len_append x y

/-- Parsing a blob assembled from a wrapped key, a 16-byte nonce and some
tail recovers the wrapped key and nonce and splits the tail at 16 bytes. -/
theorem parseBlob_layout_tail (encSess nonce rest : Bytes)
    (hk : encSess.length < 65536) (hn : nonce.length = 16) :
    parseBlob (pack16be encSess.length ++ encSess ++ nonce ++ rest) =
      .ok ⟨encSess.length, encSess, nonce, rest.take 16, rest.drop 16⟩ := by
  have hA2 : pack16be encSess.length ++ encSess ++ nonce ++ rest =
      (pack16be encSess.length ++ encSess) ++ (nonce ++ rest) := by
    simp [List.append_assoc]
  have hA3 : pack16be encSess.length ++ encSess ++ nonce ++ rest =
      ((pack16be encSess.length ++ encSess) ++ nonce) ++ rest := by
    simp [List.append_assoc]
  have hL2 : (pack16be encSess.length ++ encSess).length =
      2 + encSess.length := by
    simp [pack16be]
    omega
  have hL3 : ((pack16be encSess.length ++ encSess) ++ nonce).length =
      18 + encSess.length := by
    simp [pack16be, hn]
    omega
  have hU : unpack16be (pack16be encSess.length ++ encSess ++ nonce ++ rest) =
      .ok encSess.length := by
    show unpack16be (pack16be encSess.length ++ _) = _
    simp only [pack16be, List.cons_append, List.nil_append, unpack16be]
    congr 1
    omega
  have hKey : pySlice (pack16be encSess.length ++ encSess ++ nonce ++ rest) 2
      (2 + encSess.length) = encSess := by
    rw [pySlice]
    have h1 : (pack16be encSess.length ++ encSess ++ nonce ++ rest).drop 2 =
        encSess ++ (nonce ++ rest) := by
      rw [hA2, List.append_assoc]
      exact drop_of_append _ _ 2 (by simp [pack16be])
    rw [h1]
    have h2 : 2 + encSess.length - 2 = encSess.length := by omega
    rw [h2]
    exact take_len_append _ _
  have hNonce : pySlice (pack16be encSess.length ++ encSess ++ nonce ++ rest)
      (2 + encSess.length) (18 + encSess.length) = nonce := by
    rw [pySlice]
    have h1 : (pack16be encSess.length ++ encSess ++ nonce ++ rest).drop
        (2 + encSess.length) = nonce ++ rest := by
      rw [hA2]
      exact drop_of_append _ _ _ hL2
    rw [h1]
    have h2 : 18 + encSess.length - (2 + encSess.length) = 16 := by omega
    rw [h2]
    exact take_of_append _ _ 16 hn
  have hDrop18 : (pack16be encSess.length ++ encSess ++ nonce ++ rest).drop
      (18 + encSess.length) = rest := by
    rw [hA3]
    exact drop_of_append _ _ _ hL3
  have hTag : pySlice (pack16be encSess.length ++ encSess ++ nonce ++ rest)
      (18 + encSess.length) (34 + encSess.length) = rest.take 16 := by
    rw [pySlice, hDrop18]
    have h2 : 34 + encSess.length - (18 + encSess.length) = 16 := by omega
    rw [h2]
  have hCt : (pack16be encSess.length ++ encSess ++ nonce ++ rest).drop
      (34 + encSess.length) = rest.drop 16 := by
    have h2 : 34 + encSess.length = (18 + encSess.length) + 16 := by omega
    rw [h2, ← List.drop_drop, hDrop18]
  simp only [parseBlob, hU, hKey, hNonce, hTag, hCt]

/-- Parsing a well-formed assembled blob recovers exactly the assembled
fields: the wrapped key after the 2-byte length, the 16-byte nonce at offset
2+klen, the 16-byte tag at offset 18+klen, and the ciphertext from 34+klen. -/
theorem parseBlob_layout (encSess nonce tag ct : Bytes)
    (hk : encSess.length < 65536) (hn : nonce.length = 16)
    (ht : tag.length = 16) :
    parseBlob (assembleBlob encSess nonce tag ct) =
      .ok ⟨encSess.length, encSess, nonce, tag, ct⟩ := by
  have h1 : assembleBlob encSess nonce tag ct =
      pack16be encSess.length ++ encSess ++ nonce ++ (tag ++ ct) := by
    simp [assembleBlob, List.append_assoc]
  rw [h1, parseBlob_layout_tail encSess nonce (tag ++ ct) hk hn]
  rw [take_of_append _ _ 16 ht, drop_of_append _ _ 16 ht]

/-- Flipping a bit never changes the length. -/
theorem flipByteBit_length (b : Nat) : ∀ (l : Bytes) (i : Nat),
    (flipByteBit i b l).length = l.length := by
  intro l
  induction l with
  | nil =>
    intro i
    cases i with
    | zero => rfl
    | succ j => rfl
  | cons a t ih =>
    intro i
    cases i with
    | zero => simp [flipByteBit]
    | succ j => simp [flipByteBit, ih]

/-- XOR with a power of two changes the value. -/
theorem xor_pow2_ne (x b : Nat) : x ^^^ 2 ^ b ≠ x := by
  intro h
  have h2 : x ^^^ (x ^^^ 2 ^ b) = x ^^^ x := by rw [h]
  rw [← Nat.xor_assoc, Nat.xor_self, Nat.zero_xor] at h2
  have h3 : 0 < 2 ^ b := Nat.pos_pow_of_pos b (by norm_num)
  omega

/-- Flipping a bit inside the list changes the list. -/
theorem flipByteBit_ne (b : Nat) : ∀ (l : Bytes) (i : Nat), i < l.length →
    flipByteBit i b l ≠ l := by
  intro l
  induction l with
  | nil => intro i hi; simp at hi
  | cons a t ih =>
    intro i hi
    cases i with
    | zero =>
      simp only [flipByteBit]
      intro h
      exact xor_pow2_ne a b ((List.cons.injEq _ _ _ _).mp h).1
    | succ j =>
      simp only [flipByteBit]
      intro h
      exact ih j (by simp at hi; omega) ((List.cons.injEq _ _ _ _).mp h).2

/-- A flip landing at or past the left factor leaves that factor intact. -/
theorem flipByteBit_append (b : Nat) : ∀ (x y : Bytes) (i : Nat),
    x.length ≤ i →
    flipByteBit i b (x ++ y) = x ++ flipByteBit (i - x.length) b y := by
  intro x
  induction x with
  | nil => intro y i hi; simp
  | cons a t ih =>
    intro y i hi
    cases i with
    | zero => simp at hi
    | succ j =>
      simp only [List.cons_append, flipByteBit, List.append_eq]
      rw [ih y j (by simp at hi; omega)]
      simp [Nat.succ_sub_succ]

/-- C1: for every plaintext and every key pair on which the external
primitives satisfy their contracts (OAEP unwrap inverts the wrap, GCM
decryption inverts encryption with a 16-byte tag, base64 and UTF-8 decoding
invert encoding), hybrid_decrypt applied with the matching private key to
the output of hybrid_encrypt returns exactly the original plaintext. -/
theorem hybrid_encrypt_decrypt_roundtrip (E : CryptoEnv) (pub priv : Bytes)
    (P : String) (rand : Bytes)
    (hk : (hybridEncryptParts E pub P rand).encSess.length < 65536)
    (hrand : 48 ≤ rand.length)
    (ht : (hybridEncryptParts E pub P rand).tag.length = 16)
    (hb64 : E.b64decode (hybrid_encrypt E pub P rand) =
      assembleBlob (hybridEncryptParts E pub P rand).encSess
        (hybridEncryptParts E pub P rand).nonce
        (hybridEncryptParts E pub P rand).tag
        (hybridEncryptParts E pub P rand).ct)
    (hoaep : E.oaepDecrypt priv (hybridEncryptParts E pub P rand).encSess =
      .ok (hybridEncryptParts E pub P rand).sess)
    (hgcm : E.gcmDecrypt (hybridEncryptParts E pub P rand).sess
      (hybridEncryptParts E pub P rand).nonce
      (hybridEncryptParts E pub P rand).ct
      (hybridEncryptParts E pub P rand).tag = .ok (E.utf8Encode P))
    (hutf8 : E.utf8Decode (E.utf8Encode P) = .ok P) :
    hybrid_decrypt E priv (hybrid_encrypt E pub P rand) = .ok P := by
  have hn : (hybridEncryptParts E pub P rand).nonce.length = 16 := by
    simp [hybridEncryptParts]
    omega
  have hp := parseBlob_layout (hybridEncryptParts E pub P rand).encSess
    (hybridEncryptParts E pub P rand).nonce
    (hybridEncryptParts E pub P rand).tag
    (hybridEncryptParts E pub P rand).ct hk hn ht
  simp only [hybrid_decrypt, hb64, hybridDecryptData, hp, hoaep, hgcm]
  exact hutf8

/-- Witness for C1: a concrete round trip through the witness environment. -/
theorem hybrid_encrypt_decrypt_roundtrip_witness :
    hybrid_decrypt rtEnv [] (hybrid_encrypt rtEnv [] "a" randW) = .ok "a" :=
  hybrid_encrypt_decrypt_roundtrip rtEnv [] [] "a" randW (by decide) (by decide)
    (by decide) (by decide) (by decide) (by decide) (by decide)

/-- C2: flipping any single bit of the ciphertext or tag region of an
assembled blob (byte positions from 18+klen on) makes hybrid_decrypt fail
with the MAC-check ValueError (the spec's AuthenticationError) whenever the
AEAD rejects every (ciphertext, tag) pair other than the genuine one — the
idealisation of GCM authenticity.  The result is an error, so no altered or
partial plaintext is ever returned. -/
theorem hybrid_decrypt_tamper_rejects (E : CryptoEnv)
    (priv sess encSess nonce tag ct : Bytes) (i b : Nat)
    (hk : encSess.length < 65536) (hn : nonce.length = 16)
    (ht : tag.length = 16) (_hbit : b < 8)
    (hlo : 18 + encSess.length ≤ i)
    (hhi : i < (assembleBlob encSess nonce tag ct).length)
    (hb64 : E.b64decode (E.b64encode
        (flipByteBit i b (assembleBlob encSess nonce tag ct))) =
      flipByteBit i b (assembleBlob encSess nonce tag ct))
    (hoaep : E.oaepDecrypt priv encSess = .ok sess)
    (hreject : ∀ c t, (c, t) ≠ (ct, tag) →
      E.gcmDecrypt sess nonce c t = .err .macError) :
    hybrid_decrypt E priv (E.b64encode
      (flipByteBit i b (assembleBlob encSess nonce tag ct))) =
      .err .macError := by
  have hsplit : assembleBlob encSess nonce tag ct =
      ((pack16be encSess.length ++ encSess) ++ nonce) ++ (tag ++ ct) := by
    simp [assembleBlob, List.append_assoc]
  have hPlen : ((pack16be encSess.length ++ encSess) ++ nonce).length =
      18 + encSess.length := by
    simp [pack16be, hn]
    omega
  have hflip : flipByteBit i b (assembleBlob encSess nonce tag ct) =
      pack16be encSess.length ++ encSess ++ nonce ++
        flipByteBit (i - (18 + encSess.length)) b (tag ++ ct) := by
    rw [hsplit, flipByteBit_append b _ _ i (by rw [hPlen]; exact hlo), hPlen]
  have hlen_blob : (assembleBlob encSess nonce tag ct).length =
      34 + encSess.length + ct.length := by
    simp [assembleBlob, pack16be, hn, ht]
    omega
  have hjlt : i - (18 + encSess.length) < (tag ++ ct).length := by
    have h1 := hhi
    rw [hlen_blob] at h1
    rw [List.length_append, ht]
    omega
  have hne : flipByteBit (i - (18 + encSess.length)) b (tag ++ ct) ≠
      tag ++ ct := flipByteBit_ne b (tag ++ ct) _ hjlt
  have hparse := parseBlob_layout_tail encSess nonce
    (flipByteBit (i - (18 + encSess.length)) b (tag ++ ct)) hk hn
  have hpair :
      ((flipByteBit (i - (18 + encSess.length)) b (tag ++ ct)).drop 16,
       (flipByteBit (i - (18 + encSess.length)) b (tag ++ ct)).take 16) ≠
        (ct, tag) := by
    intro hp
    apply hne
    have h1 : (flipByteBit (i - (18 + encSess.length)) b (tag ++ ct)).take 16 =
        tag := congrArg Prod.snd hp
    have h2 : (flipByteBit (i - (18 + encSess.length)) b (tag ++ ct)).drop 16 =
        ct := congrArg Prod.fst hp
    calc flipByteBit (i - (18 + encSess.length)) b (tag ++ ct) =
        (flipByteBit (i - (18 + encSess.length)) b (tag ++ ct)).take 16 ++
          (flipByteBit (i - (18 + encSess.length)) b (tag ++ ct)).drop 16 :=
        (List.take_append_drop 16 _).symm
      _ = tag ++ ct := by rw [h1, h2]
  have hrej := hreject _ _ hpair
  simp only [hybrid_decrypt]
  rw [hb64, hflip]
  simp only [hybridDecryptData, hparse, hoaep, hrej]

/-- Witness for C2: flipping bit 0 of byte 20 (the first tag byte) of a
concrete blob is rejected with the MAC error in the tamper environment. -/
theorem hybrid_decrypt_tamper_rejects_witness :
    hybrid_decrypt tamperEnv [0] (tamperEnv.b64encode
      (flipByteBit 20 0 (assembleBlob [1, 2] nonceW tamperTag tamperCt))) =
      .err .macError :=
  hybrid_decrypt_tamper_rejects tamperEnv [0] [5] [1, 2] nonceW tamperTag
    tamperCt 20 0 (by decide) (by decide) (by decide) (by decide) (by decide)
    (by decide) (by decide) (by decide)
    (fun c t h => by
      have hne2 : ¬(c = tamperCt ∧ t = tamperTag) := by
        intro hct
        exact h (by rw [hct.1, hct.2])
      simp [tamperEnv, hne2])

/-- C3 (amended): the base64-decoded blob produced by hybrid_encrypt is a
2-byte big-endian wrapped-key length, the wrapped session key, then a
16-byte nonce at offset 2+key_len, a 16-byte tag at offset 18+key_len, and
the ciphertext from offset 34+key_len; hybrid_decrypt slices the blob at
exactly these offsets. -/
theorem blob_layout_corrected (E : CryptoEnv) (pub : Bytes) (P : String)
    (rand : Bytes)
    (hk : (hybridEncryptParts E pub P rand).encSess.length < 65536)
    (hrand : 48 ≤ rand.length)
    (ht : (hybridEncryptParts E pub P rand).tag.length = 16) :
    hybrid_encrypt E pub P rand = E.b64encode
      (pack16be (hybridEncryptParts E pub P rand).encSess.length ++
        (hybridEncryptParts E pub P rand).encSess ++
        (hybridEncryptParts E pub P rand).nonce ++
        (hybridEncryptParts E pub P rand).tag ++
        (hybridEncryptParts E pub P rand).ct) ∧
    (hybridEncryptParts E pub P rand).nonce.length = 16 ∧
    parseBlob (assembleBlob (hybridEncryptParts E pub P rand).encSess
        (hybridEncryptParts E pub P rand).nonce
        (hybridEncryptParts E pub P rand).tag
        (hybridEncryptParts E pub P rand).ct) =
      .ok ⟨(hybridEncryptParts E pub P rand).encSess.length,
        (hybridEncryptParts E pub P rand).encSess,
        (hybridEncryptParts E pub P rand).nonce,
        (hybridEncryptParts E pub P rand).tag,
        (hybridEncryptParts E pub P rand).ct⟩ := by
  have hn : (hybridEncryptParts E pub P rand).nonce.length = 16 := by
    simp [hybridEncryptParts]
    omega
  exact ⟨rfl, hn, parseBlob_layout _ _ _ _ hk hn ht⟩

/-- C3 counterexample: on the concrete 40-byte blob 0,1,2,…,39 the slicing
hybrid_decrypt performs differs from the claimed layout (12-byte nonce at
2+klen, tag at 14+klen, ciphertext from 30+klen). -/
theorem blob_layout_claim_cex :
    parseBlobClaim (List.range 40) ≠ parseBlob (List.range 40) := by decide

/-- Witness for C3's amended theorem: the nonce of a concrete encryption is
16 bytes long. -/
theorem blob_layout_corrected_witness :
    (hybridEncryptParts rtEnv [] "a" randW).nonce.length = 16 :=
  (blob_layout_corrected rtEnv [] "a" randW (by decide) (by decide)
    (by decide)).2.1

/-- C4 (amended): a decoded blob shorter than 30 bytes always fails, but not
with a FormatError (the code defines none): an input shorter than 2 bytes
fails with struct.error from the header unpack, and an input of 2 to 29
bytes passes the header read and fails at RSA-OAEP key unwrap with
ValueError, because every candidate wrapped key sliced from it is shorter
than any real RSA ciphertext.  In no case is plaintext returned. -/
theorem hybrid_decrypt_short_input (E : CryptoEnv) (priv data : Bytes)
    (hshort : data.length < 30)
    (hoaep : ∀ x : Bytes, x.length < 30 →
      E.oaepDecrypt priv x = .err .oaepError) :
    hybridDecryptData E priv data =
      .err (if data.length < 2 then .structError else .oaepError) := by
  match data with
  | [] => simp [hybridDecryptData, parseBlob, unpack16be]
  | [b0] => simp [hybridDecryptData, parseBlob, unpack16be]
  | b0 :: b1 :: rest =>
    have h2 : ¬ ((b0 :: b1 :: rest : Bytes).length < 2) := by
      simp
    rw [if_neg h2]
    have hd : (b0 :: b1 :: rest : Bytes).drop 2 = rest := rfl
    have h3 : (pySlice (b0 :: b1 :: rest) 2 (2 + (b0 * 256 + b1))).length ≤
        rest.length := by
      rw [pySlice, hd]
      simp [List.length_take]
    have h4 : rest.length < 28 := by
      simp at hshort
      omega
    have hlen : (pySlice (b0 :: b1 :: rest) 2 (2 + (b0 * 256 + b1))).length <
        30 := by omega
    have h5 := hoaep _ hlen
    simp [hybridDecryptData, parseBlob, unpack16be, h5]

/-- C4 counterexample: the 2-byte decoded blob [0,0] is far shorter than the
claimed 30-byte header, yet hybrid_decrypt fails with the key-unwrap
ValueError (the spec's CryptoError), not with a header-format error; the
code's only header error, struct.error, is raised solely for inputs shorter
than 2 bytes. -/
theorem hybrid_decrypt_short_input_cex :
    hybridDecryptData rtEnv [] [0, 0] = .err .oaepError ∧
    PyErr.oaepError ≠ PyErr.structError := by decide

/-- Witness for C4's amended theorem at the concrete 3-byte blob [0,0,1]. -/
theorem hybrid_decrypt_short_input_witness :
    hybridDecryptData rtEnv [] [0, 0, 1] =
      .err (if ([0, 0, 1] : Bytes).length < 2 then .structError
        else .oaepError) :=
  hybrid_decrypt_short_input rtEnv [] [0, 0, 1] (by decide)
    (fun x hx => by
      have hne : x.length ≠ 32 := by omega
      simp [rtEnv, hne])

/-- C5: the AES-GCM key of one hybrid_encrypt call is exactly the 32 bytes
drawn fresh from the RNG at the start of that call — a full 256-bit key,
used as the AEAD key of that call only; calls whose 32-byte draws differ use
different session keys, and no key is retained between calls (the embedding
is a pure function of the per-call entropy). -/
theorem session_key_fresh_per_call (E : CryptoEnv) (pub : Bytes) (P : String)
    (rand rand2 : Bytes) (hr : 32 ≤ rand.length) :
    (hybridEncryptParts E pub P rand).sess = rand.take 32 ∧
    (hybridEncryptParts E pub P rand).sess.length = 32 ∧
    ((hybridEncryptParts E pub P rand).ct,
      (hybridEncryptParts E pub P rand).tag) =
      E.gcmEncrypt (hybridEncryptParts E pub P rand).sess
        (hybridEncryptParts E pub P rand).nonce (E.utf8Encode P) ∧
    (rand.take 32 ≠ rand2.take 32 →
      (hybridEncryptParts E pub P rand).sess ≠
        (hybridEncryptParts E pub P rand2).sess) := by
  refine ⟨rfl, ?_, ?_, ?_⟩
  · simp [hybridEncryptParts]
    omega
  · simp [hybridEncryptParts]
  · intro hne12 h
    exact hne12 (by simpa [hybridEncryptParts] using h)

/-- Witness for C5: the concrete session key is the first 32 entropy bytes. -/
theorem session_key_fresh_per_call_witness :
    (hybridEncryptParts rtEnv [] "a" randW).sess = randW.take 32 :=
  (session_key_fresh_per_call rtEnv [] "a" randW [] (by decide)).1

/-- C6 (amended): export_pdf_secured maps a widget rectangle to document
space by multiplying all four components by the single factor
s = page_w/raster_w derived from the width alone; this coincides with the
claimed componentwise (sx, sy, sx, sy) mapping exactly when
page_w/raster_w = page_h/raster_h, and on the square example a
Rectangle(10,10,20,20) on a 300-wide raster mapped to a 600-wide page
yields the document rectangle (20, 20, 60, 60). -/
theorem export_scale_uniform (pageW pageH rasterW rasterH : ℚ) (r : QRectI)
    (hAspect : pageW / rasterW = pageH / rasterH) :
    exportRedactRect pageW rasterW r =
      mapRectClaim pageW pageH rasterW rasterH r ∧
    exportRedactRect 600 300 ⟨10, 10, 20, 20⟩ = (20, 20, 60, 60) := by
  constructor
  · simp [exportRedactRect, mapRectClaim, exportScale, hAspect]
  · norm_num [exportRedactRect, exportScale, Prod.ext_iff]

/-- C6 counterexample: with a 600 by 300 page over a 300 by 300 raster the
code's mapping disagrees with the claimed (sx, sy, sx, sy) mapping, because
the code scales y by the width ratio as well. -/
theorem export_scale_claim_cex :
    exportRedactRect 600 300 ⟨10, 10, 20, 20⟩ ≠
      mapRectClaim 600 300 300 300 ⟨10, 10, 20, 20⟩ := by
  norm_num [exportRedactRect, mapRectClaim, exportScale, Prod.ext_iff]

/-- Witness for C6's amended theorem on the equal-aspect square example. -/
theorem export_scale_uniform_witness :
    exportRedactRect 600 300 ⟨10, 10, 20, 20⟩ =
      mapRectClaim 600 600 300 300 ⟨10, 10, 20, 20⟩ :=
  (export_scale_uniform 600 600 300 300 ⟨10, 10, 20, 20⟩ rfl).1

/-- C7: with a public key supplied, apply_redaction succeeds only when
capture, encode and encrypt all succeed, and then the output page carries
the escrow annotation attached before every opaque fill; when any of the
three steps fails, the whole call returns exactly that error and produces no
output page, so the fill is never applied and a region is never left
redacted-without-escrow. -/
theorem apply_redaction_atomic (pk : Bytes) (capture : PyResult Bytes)
    (encodeStep encryptStep : Bytes → PyResult Bytes)
    (page : List PageOp) (rects : List RectQ) :
    (∀ e, apply_redaction (some pk) capture encodeStep encryptStep page rects
        = .err e →
      capture = .err e ∨ ∃ c, capture = .ok c ∧ (encodeStep c = .err e ∨
        ∃ n, encodeStep c = .ok n ∧ encryptStep n = .err e)) ∧
    (∀ out, apply_redaction (some pk) capture encodeStep encryptStep page rects
        = .ok out →
      ∃ c n blob, capture = .ok c ∧ encodeStep c = .ok n ∧
        encryptStep n = .ok blob ∧
        out = page ++ PageOp.escrowAnnot blob :: rects.map PageOp.fill) := by
  constructor
  · intro e he
    cases hc : capture with
    | err e1 =>
      rw [hc] at he
      simp only [apply_redaction, PyResult.err.injEq] at he
      subst he
      exact Or.inl rfl
    | ok c =>
      rw [hc] at he
      cases hen : encodeStep c with
      | err e2 =>
        simp only [apply_redaction, hen, PyResult.err.injEq] at he
        subst he
        exact Or.inr ⟨c, rfl, Or.inl hen⟩
      | ok n =>
        cases hcr : encryptStep n with
        | err e3 =>
          simp only [apply_redaction, hen, hcr, PyResult.err.injEq] at he
          subst he
          exact Or.inr ⟨c, rfl, Or.inr ⟨n, hen, hcr⟩⟩
        | ok blob =>
          simp only [apply_redaction, hen, hcr] at he
          exact PyResult.noConfusion he
  · intro out hout
    cases hc : capture with
    | err e1 =>
      rw [hc] at hout
      simp only [apply_redaction] at hout
      exact PyResult.noConfusion hout
    | ok c =>
      rw [hc] at hout
      cases hen : encodeStep c with
      | err e2 =>
        simp only [apply_redaction, hen] at hout
        exact PyResult.noConfusion hout
      | ok n =>
        cases hcr : encryptStep n with
        | err e3 =>
          simp only [apply_redaction, hen, hcr] at hout
          exact PyResult.noConfusion hout
        | ok blob =>
          simp only [apply_redaction, hen, hcr, PyResult.ok.injEq] at hout
          exact ⟨c, n, blob, rfl, hen, hcr, hout.symm⟩

/-- Witness for C7: a concrete successful escrow redaction, every step
succeeding, with the annotation preceding the fills. -/
theorem apply_redaction_atomic_witness :
    ∃ c n blob, (PyResult.ok [1] : PyResult Bytes) = .ok c ∧
      (PyResult.ok (c ++ [2]) : PyResult Bytes) = .ok n ∧
      (PyResult.ok (n ++ [3]) : PyResult Bytes) = .ok blob ∧
      ([PageOp.escrowAnnot [1, 2, 3]] : List PageOp) =
        [] ++ PageOp.escrowAnnot blob :: ([] : List RectQ).map PageOp.fill :=
  (apply_redaction_atomic [7] (.ok [1]) (fun x => .ok (x ++ [2]))
    (fun x => .ok (x ++ [3])) [] []).2 [PageOp.escrowAnnot [1, 2, 3]] rfl

/-- Folding min over a constant list returns the constant. -/
theorem foldr_min_const (c : ℚ) : ∀ (l : List ℚ), (∀ a ∈ l, a = c) →
    l.foldr min c = c := by
  intro l
  induction l with
  | nil => intro h; rfl
  | cons a t ih =>
    intro h
    have ha : a = c := h a (by simp)
    have ht2 : ∀ x ∈ t, x = c := fun x hx => h x (by simp [hx])
    simp [ha, ih ht2]

/-- Folding max over a constant list returns the constant. -/
theorem foldr_max_const (c : ℚ) : ∀ (l : List ℚ), (∀ a ∈ l, a = c) →
    l.foldr max c = c := by
  intro l
  induction l with
  | nil => intro h; rfl
  | cons a t ih =>
    intro h
    have ha : a = c := h a (by simp)
    have ht2 : ∀ x ∈ t, x = c := fun x hx => h x (by simp [hx])
    simp [ha, ih ht2]

/-- C8: polygon decomposition rejects every input with fewer than 3 points
with GeometryError before any band is processed, and for every flat
(zero-height) polygon with at least 3 points it returns the empty rectangle
set rather than an error, since the vertical extent collapses to zero
bands. -/
theorem decompose_degenerate (pts : List PtQ) (s c : ℚ) :
    (pts.length < 3 → decompose pts s = .err .geometryError) ∧
    (3 ≤ pts.length → (∀ p ∈ pts, p.y = c) → decompose pts s = .ok []) := by
  constructor
  · intro h
    simp [decompose, h]
  · intro h3 hflat
    have hne : pts ≠ [] := by
      intro h0
      rw [h0] at h3
      simp at h3
    have hyall : ∀ a ∈ pts.map PtQ.y, a = c := by
      intro a ha
      obtain ⟨p, hp, rfl⟩ := List.mem_map.mp ha
      exact hflat p hp
    have hhead : (pts.map PtQ.y).headD 0 = c := by
      cases pts with
      | nil => exact absurd rfl hne
      | cons p rest => exact hflat p (by simp)
    have hmin : (pts.map PtQ.y).foldr min ((pts.map PtQ.y).headD 0) = c := by
      rw [hhead]
      exact foldr_min_const c _ hyall
    have hmax : (pts.map PtQ.y).foldr max ((pts.map PtQ.y).headD 0) = c := by
      rw [hhead]
      exact foldr_max_const c _ hyall
    have hlt : ¬ (pts.length < 3) := by omega
    simp only [decompose, if_neg hlt, hmin, hmax]
    simp

/-- Witness for C8: a 2-point input is rejected, a flat triangle at height 5
decomposes to the empty set. -/
theorem decompose_degenerate_witness :
    decompose [⟨0, 0⟩, ⟨1, 0⟩] 1 = .err .geometryError ∧
    decompose [⟨0, 5⟩, ⟨1, 5⟩, ⟨2, 5⟩] 1 = .ok [] :=
  ⟨(decompose_degenerate [⟨0, 0⟩, ⟨1, 0⟩] 1 0).1 (by decide),
   (decompose_degenerate [⟨0, 5⟩, ⟨1, 5⟩, ⟨2, 5⟩] 1 5).2 (by decide)
     (fun p hp => by fin_cases hp <;> rfl)⟩

/-- C9: the envelope interface works on strings, not arbitrary bytes:
hybrid_encrypt feeds the AEAD the UTF-8 encoding of its str plaintext, and
hybrid_decrypt UTF-8-decodes the authenticated plaintext before returning,
so when the authenticated plaintext of a blob is not valid UTF-8 the call
fails with UnicodeDecodeError even though tag verification succeeded. -/
theorem decrypt_utf8_strictness (E : CryptoEnv) (priv data : Bytes)
    (bp : BlobParts) (sess plain : Bytes)
    (hparse : parseBlob data = .ok bp)
    (hoaep : E.oaepDecrypt priv bp.encKey = .ok sess)
    (hgcm : E.gcmDecrypt sess bp.nonce bp.ct bp.tag = .ok plain)
    (hbad : E.utf8Decode plain = .err .unicodeError) :
    hybridDecryptData E priv data = .err .unicodeError ∧
    ∀ pub P rand, (hybridEncryptParts E pub P rand).ct =
      (E.gcmEncrypt (hybridEncryptParts E pub P rand).sess
        (hybridEncryptParts E pub P rand).nonce (E.utf8Encode P)).1 := by
  constructor
  · simp only [hybridDecryptData, hparse, hoaep, hgcm]
    exact hbad
  · intro pub P rand
    rfl

/-- Witness for C9: a concrete blob whose authenticated plaintext is the
single invalid byte 200 fails with the Unicode error after verification. -/
theorem decrypt_utf8_strictness_witness :
    hybridDecryptData u8Env [] ([0, 0] ++ List.replicate 16 0 ++
      List.replicate 16 0 ++ [200]) = .err .unicodeError :=
  (decrypt_utf8_strictness u8Env []
    ([0, 0] ++ List.replicate 16 0 ++ List.replicate 16 0 ++ [200])
    ⟨0, [], List.replicate 16 0, List.replicate 16 0, [200]⟩ [] [200]
    (by decide) (by decide) (by decide) (by decide)).1

/-- listModify never changes the length. -/
theorem listModify_length {α : Type} (f : α → α) :
    ∀ (n : Nat) (l : List α), (listModify f n l).length = l.length := by
  intro n l
  induction l generalizing n with
  | nil => cases n <;> rfl
  | cons a t ih =>
    cases n with
    | zero => simp [listModify]
    | succ m => simp [listModify, ih]

/-- Under a page-index-preserving edit, every widget keeps its page index. -/
theorem getD_listModify_pageIndex (f : PageWidget → PageWidget)
    (hf : ∀ w, (f w).pageIndex = w.pageIndex) :
    ∀ (l : List PageWidget) (n i : Nat),
      ((listModify f n l).getD i (freshWidget 0)).pageIndex =
        (l.getD i (freshWidget 0)).pageIndex := by
  intro l
  induction l with
  | nil =>
    intro n i
    cases n <;> rfl
  | cons a t ih =>
    intro n i
    cases n with
    | zero =>
      cases i with
      | zero => simp [listModify, hf]
      | succ j => simp [listModify]
    | succ m =>
      cases i with
      | zero => simp [listModify]
      | succ j => simpa [listModify] using ih m j

/-- addItem keeps the widget's page index. -/
theorem addItem_pageIndex (k : ActKind) (d : QRectI) (w : PageWidget) :
    (addItem k d w).pageIndex = w.pageIndex := by
  cases k <;> rfl

/-- removeItem keeps the widget's page index. -/
theorem removeItem_pageIndex (k : ActKind) (d : QRectI) (w : PageWidget) :
    (removeItem k d w).pageIndex = w.pageIndex := by
  cases k <;> rfl

/-- setItems keeps the widget's page index. -/
theorem setItems_pageIndex (k : ActKind) (l : List QRectI) (w : PageWidget) :
    (setItems k l w).pageIndex = w.pageIndex := by
  cases k <;> rfl

/-- load_pdf creates widget i with page index i. -/
theorem getD_fresh (n i : Nat) (hi : i < n) :
    ((List.range n).map freshWidget).getD i (freshWidget 0) = freshWidget i := by
  rw [List.getD_eq_getElem?_getD]
  simp [List.getElem?_map, List.getElem?_range, hi]

/-- Every application step preserves the history invariant. -/
theorem step_preserves_histInv (s : AppState) (op : AppOp) (h : HistInv s) :
    HistInv (step s op) := by
  obtain ⟨h1, h2⟩ := h
  cases op with
  | load n =>
    refine ⟨?_, ?_⟩
    · intro i hi
      simp only [step] at hi ⊢
      rw [List.length_map, List.length_range] at hi
      rw [getD_fresh n i hi]
      rfl
    · intro e he
      simp only [step] at he
      exact absurd he (List.not_mem_nil e)
  | draw i k d =>
    by_cases hc : i < s.widgets.length
    · refine ⟨?_, ?_⟩
      · intro j hj
        simp only [step, if_pos hc] at hj ⊢
        rw [listModify_length] at hj
        rw [getD_listModify_pageIndex (addItem k d) (addItem_pageIndex k d)
          s.widgets i j]
        exact h1 j hj
      · intro e he
        simp only [step, if_pos hc] at he ⊢
        rw [listModify_length]
        rcases List.mem_cons.mp he with rfl | hmem
        · show (s.widgets.getD i (freshWidget 0)).pageIndex < s.widgets.length
          rw [h1 i hc]
          exact hc
        · exact h2 e hmem
    · simp only [step, if_neg hc]
      exact ⟨h1, h2⟩
  | undo =>
    cases hh : s.history with
    | nil =>
      simp only [step, hh]
      exact ⟨h1, h2⟩
    | cons e rest =>
      refine ⟨?_, ?_⟩
      · intro j hj
        simp only [step, hh] at hj ⊢
        rw [listModify_length] at hj
        rw [getD_listModify_pageIndex _ (removeItem_pageIndex e.kind e.data)
          s.widgets e.page j]
        exact h1 j hj
      · intro e2 he2
        simp only [step, hh] at he2 ⊢
        rw [listModify_length]
        exact h2 e2 (by rw [hh]; exact List.mem_cons_of_mem e he2)
  | mutate i k l =>
    refine ⟨?_, ?_⟩
    · intro j hj
      simp only [step] at hj ⊢
      rw [listModify_length] at hj
      rw [getD_listModify_pageIndex _ (setItems_pageIndex k l) s.widgets i j]
      exact h1 j hj
    · intro e he
      simp only [step] at he ⊢
      rw [listModify_length]
      exact h2 e he

/-- Running any operation sequence from an invariant state keeps it. -/
theorem histInv_foldl : ∀ (ops : List AppOp) (s : AppState), HistInv s →
    HistInv (ops.foldl step s) := by
  intro ops
  induction ops with
  | nil => intro s h; exact h
  | cons op rest ih =>
    intro s h
    exact ih (step s op) (step_preserves_histInv s op h)

/-- C10: after any sequence of application operations, every history entry's
page value is below the widget count — entries are appended only by a live
widget using its own page_index and load_pdf clears history together with
the widget list — so undo_last_action's access image_widgets[page_index] is
always in bounds. -/
theorem history_page_in_bounds (ops : List AppOp) (e : HistEntry)
    (he : e ∈ (runApp ops).history) :
    e.page < (runApp ops).widgets.length := by
  have hinit : HistInv initState := by
    refine ⟨?_, ?_⟩
    · intro i hi
      simp [initState] at hi
    · intro e2 he2
      simp [initState] at he2
  exact (histInv_foldl ops initState hinit).2 e he

/-- Witness for C10: the single entry recorded after loading two pages and
drawing a blackout on page 1 indexes inside the two-widget list. -/
theorem history_page_in_bounds_witness :
    (⟨1, ActKind.blackout, ⟨0, 0, 6, 6⟩⟩ : HistEntry).page <
      (runApp [AppOp.load 2,
        AppOp.draw 1 ActKind.blackout ⟨0, 0, 6, 6⟩]).widgets.length :=
  history_page_in_bounds
    [AppOp.load 2, AppOp.draw 1 ActKind.blackout ⟨0, 0, 6, 6⟩]
    ⟨1, ActKind.blackout, ⟨0, 0, 6, 6⟩⟩ (by decide)
